/-
Verification of the student_tracking repository against its specification.

The development shallowly embeds the two Python source files:
  * `student_input.py`  — roster normalization, import, tracking-id assignment;
  * `live_scanner_static.py` — the live scan loop, the scans table, the
    daily CSV sink and the rolling history.

Strings are modelled as Lean `String`s (lists of unicode code points, matching
Python `str` up to the ASCII fragment the repository manipulates); machine
integers do not occur (Python ints are unbounded, modelled as `Nat` where the
code only produces non-negative values).  Filesystem and database state are
modelled as explicit association lists, and each `datetime.now()` call in the
code is one explicit `Instant` parameter.
-/
import Mathlib

namespace StudentTracking

/-! ### Character-level helpers

Python's `str` operations used by `student_input.py`, restated over
`List Char`.  `\s` / `str.strip` whitespace is modelled by `Char.isWhitespace`
(space, tab, CR, LF — the whitespace the repository's inputs contain). -/

/-- Model of Python `str.strip()`: drop whitespace from both ends. -/
def stripCs (cs : List Char) : List Char :=
  ((cs.dropWhile Char.isWhitespace).reverse.dropWhile Char.isWhitespace).reverse

/-- Split a character list into its maximal runs of non-whitespace characters
(the words), dropping all whitespace.  `cur` accumulates the current word in
reverse.  This models `re.split(r"\s+", ...)` after stripping, i.e. the word
decomposition underlying `_norm`. -/
def splitWA (cs : List Char) (cur : List Char) : List (List Char) :=
  match cs with
  | [] => if cur = [] then [] else [cur.reverse]
  | c :: rest =>
    if c.isWhitespace then
      (if cur = [] then splitWA rest [] else cur.reverse :: splitWA rest [])
    else
      splitWA rest (c :: cur)

/-- The whitespace-separated words of a string. -/
def splitWords (s : String) : List (List Char) :=
  splitWA s.toList []

/-- Model of Python `sep.join(parts)` (on character lists). -/
def joinSep (sep : List Char) : List (List Char) → List Char
  | [] => []
  | [w] => w
  | w :: r :: rest => w ++ sep ++ joinSep sep (r :: rest)

/-- Embedding of `_norm` (student_input.py:33-34):
`re.sub(r"\s+", " ", (s or "").strip())` — trim the ends and collapse each
internal whitespace run to a single space.  Equivalently: join the words of
`s` with single spaces. -/
def normCs (s : String) : List Char :=
  joinSep [' '] (splitWords s)

/-- String-valued version of `_norm`. -/
def norm (s : String) : String :=
  String.mk (normCs s)

/-- Model of Python `str.capitalize()`: first character uppercased, the rest
lowercased (ASCII case mapping, matching the repository's inputs). -/
def capitalizeCs : List Char → List Char
  | [] => []
  | c :: rest => c.toUpper :: rest.map Char.toLower

/-- Model of Python `str.isupper()`: at least one cased character, and every
cased character uppercase (cased = letter in the ASCII fragment). -/
def pyIsUpperCs (w : List Char) : Bool :=
  w.any (fun c => c.isAlpha) && w.all (fun c => !c.isAlpha || c.isUpper)

/-- The per-element transform of the comprehension in `to_title`
(student_input.py:41): keep a fully-uppercase word of length > 1, otherwise
capitalize. -/
def titleWordCs (w : List Char) : List Char :=
  if pyIsUpperCs w && w.length > 1 then w else capitalizeCs w

/-- Model of `re.split(r"(\s+)", s)` on an already-normalized `s` (whose
separators are all single spaces): the words interleaved with the captured
single-space separators. -/
def interleaveSep : List (List Char) → List (List Char)
  | [] => []
  | [w] => [w]
  | w :: r :: rest => w :: [' '] :: interleaveSep (r :: rest)

/-- Embedding of `to_title` (student_input.py:36-43):
normalize, and if non-empty, `" ".join` of the element-wise `titleWordCs`
image of `re.split(r"(\s+)", ·)` of the normalized string. -/
def to_titleCs (s : String) : List Char :=
  let n := normCs s
  if n = [] then n
  else joinSep [' '] ((interleaveSep (splitWA n [])).map titleWordCs)

/-- String-valued `to_title`. -/
def to_title (s : String) : String :=
  String.mk (to_titleCs s)

/-- Model of `re.match(r"^[A-Z]\.?$", s)` being a hit: a single ASCII
uppercase letter optionally followed by a period. -/
def isUpperInitialCs : List Char → Bool
  | [c] => 'A' ≤ c && c ≤ 'Z'
  | [c, d] => ('A' ≤ c && c ≤ 'Z') && d = '.'
  | _ => false

/-- Embedding of `clean_first` (student_input.py:45-50): normalize; return
`""` when the result has length 1 or matches `^[A-Z]\.?$`; otherwise
`to_title` of the normalized string. -/
def clean_first (s : String) : String :=
  let f := normCs s
  if f.length = 1 || isUpperInitialCs f then "" else to_title (String.mk f)

/-- Split at the first comma (models Python `raw.split(",", 1)`); returns the
part before and the part after the comma.  Only used when a comma occurs. -/
def splitFirstComma : List Char → List Char × List Char
  | [] => ([], [])
  | c :: rest =>
    if c = ',' then ([], rest)
    else
      let p := splitFirstComma rest
      (c :: p.1, p.2)

/-- Embedding of `parse_fullname` (student_input.py:52-71): parse
`"Last, First M."` into `(first, last)`, dropping middle initials; without a
comma, fall back to first-token / last-token. -/
def parse_fullname (raw : String) : String × String :=
  let r := normCs raw
  if r = [] then ("", "")
  else if r.contains ',' then
    let p := splitFirstComma r
    let lastPart := stripCs p.1
    let given := stripCs p.2
    let tokens := splitWA given []
    let first := tokens.headD []
    (clean_first (String.mk first), to_title (String.mk lastPart))
  else
    match splitWA r [] with
    | [] => ("", "")
    | [t] => (clean_first (String.mk t), "")
    | t :: t2 :: ts => (clean_first (String.mk t), to_title (String.mk ((t2 :: ts).getLastD [])))

example : clean_first " jane " = "Jane" := by decide
example : clean_first "A." = "" := by decide
example : clean_first "a." = "A." := by decide
example : to_title "ab cd" = "Ab   Cd" := by decide
example : to_title "MC donald" = "MC   Donald" := by decide
example : parse_fullname "Smith, Jane A." = ("Jane", "Smith") := by decide
example : parse_fullname "  " = ("", "") := by decide
example : parse_fullname "Cher" = ("Cher", "") := by decide
example : norm "  a   b " = "a b" := by decide

/-! ### Structure of `splitWA` / `joinSep` -/

theorem splitWA_words_ne_nil : ∀ (cs cur : List Char), ∀ w ∈ splitWA cs cur, w ≠ []
  | [], cur => by
    intro w hw
    by_cases h : cur = []
    · simp [splitWA, h] at hw
    · simp only [splitWA, if_neg h, List.mem_singleton] at hw
      subst hw
      simpa using h
  | c :: rest, cur => by
    intro w hw
    by_cases hws : c.isWhitespace
    · by_cases h : cur = []
      · simp [splitWA, hws, h] at hw
        exact splitWA_words_ne_nil rest [] w hw
      · simp [splitWA, hws, h] at hw
        rcases hw with hw | hw
        · subst hw
          simpa using h
        · exact splitWA_words_ne_nil rest [] w hw
    · simp [splitWA, hws] at hw
      exact splitWA_words_ne_nil rest (c :: cur) w hw

theorem splitWA_words_no_ws : ∀ (cs cur : List Char),
    (∀ c ∈ cur, c.isWhitespace = false) →
    ∀ w ∈ splitWA cs cur, ∀ c ∈ w, c.isWhitespace = false
  | [], cur => by
    intro hcur w hw c hc
    by_cases h : cur = [] <;> simp [splitWA, h] at hw
    subst hw
    exact hcur c (by simpa using hc)
  | a :: rest, cur => by
    intro hcur w hw c hc
    by_cases hws : a.isWhitespace
    · by_cases h : cur = []
      · simp [splitWA, hws, h] at hw
        exact splitWA_words_no_ws rest [] (by simp) w hw c hc
      · simp [splitWA, hws, h] at hw
        rcases hw with hw | hw
        · subst hw
          exact hcur c (by simpa using hc)
        · exact splitWA_words_no_ws rest [] (by simp) w hw c hc
    · simp [splitWA, hws] at hw
      refine splitWA_words_no_ws rest (a :: cur) ?_ w hw c hc
      intro d hd
      rcases List.mem_cons.mp hd with rfl | hd
      · simpa using hws
      · exact hcur d hd

theorem splitWA_append_no_ws : ∀ (w : List Char), (∀ c ∈ w, c.isWhitespace = false) →
    ∀ (cs cur : List Char), splitWA (w ++ cs) cur = splitWA cs (w.reverse ++ cur)
  | [], _ => by intro cs cur; simp
  | a :: w', h => by
    intro cs cur
    have ha : a.isWhitespace = false := h a (List.mem_cons_self a w')
    have h' : ∀ c ∈ w', c.isWhitespace = false := fun c hc => h c (List.mem_cons_of_mem a hc)
    simp only [List.cons_append, splitWA, ha]
    rw [show w'.append cs = w' ++ cs from rfl, splitWA_append_no_ws w' h' cs (a :: cur)]
    simp

theorem splitWA_of_no_ws (w : List Char) (h : ∀ c ∈ w, c.isWhitespace = false)
    (hne : w ≠ []) : splitWA w [] = [w] := by
  have := splitWA_append_no_ws w h [] []
  simp only [List.append_nil] at this
  rw [this, splitWA]
  simp [hne]

theorem splitWA_joinSep : ∀ (ws : List (List Char)),
    (∀ w ∈ ws, w ≠ []) → (∀ w ∈ ws, ∀ c ∈ w, c.isWhitespace = false) →
    splitWA (joinSep [' '] ws) [] = ws
  | [] => by intro _ _; rfl
  | [w] => by
    intro h1 h2
    simpa [joinSep] using splitWA_of_no_ws w (h2 w (by simp)) (h1 w (by simp))
  | w :: r :: rest => by
    intro h1 h2
    have hw1 : w ≠ [] := h1 w (by simp)
    have hw2 : ∀ c ∈ w, c.isWhitespace = false := h2 w (by simp)
    have ih := splitWA_joinSep (r :: rest)
      (fun x hx => h1 x (List.mem_cons_of_mem w hx))
      (fun x hx => h2 x (List.mem_cons_of_mem w hx))
    have hj : joinSep [' '] (w :: r :: rest) = w ++ (' ' :: joinSep [' '] (r :: rest)) := by
      simp [joinSep]
    rw [hj, splitWA_append_no_ws w hw2]
    simp [splitWA, hw1, ih]

theorem splitWA_normCs (s : String) : splitWA (normCs s) [] = splitWords s :=
  splitWA_joinSep (splitWords s)
    (fun w hw => splitWA_words_ne_nil s.toList [] w hw)
    (fun w hw => splitWA_words_no_ws s.toList [] (by simp) w hw)

theorem titleWordCs_space : titleWordCs [' '] = [' '] := by decide

theorem joinSep_interleave : ∀ (ws : List (List Char)),
    joinSep [' '] ((interleaveSep ws).map titleWordCs) =
      joinSep [' ', ' ', ' '] (ws.map titleWordCs)
  | [] => rfl
  | [w] => rfl
  | w :: r :: rest => by
    have ih := joinSep_interleave (r :: rest)
    obtain ⟨x, l, hxl⟩ : ∃ x l, (interleaveSep (r :: rest)).map titleWordCs = x :: l := by
      cases rest with
      | nil => exact ⟨titleWordCs r, [], rfl⟩
      | cons a as => exact ⟨titleWordCs r, _, rfl⟩
    have hstep : interleaveSep (w :: r :: rest) = w :: [' '] :: interleaveSep (r :: rest) := rfl
    rw [hstep]
    simp only [List.map_cons, titleWordCs_space]
    rw [hxl]
    simp only [joinSep, hxl.symm, ih]
    cases rest with
    | nil => simp [joinSep]
    | cons a as => simp [joinSep]

/-- Claim C8 (counterexample): `to_title` is claimed to keep the words of a
multi-word input separated exactly as in the normalized input; on `"ab cd"`
(normalized separator: one space) the code produces `"Ab   Cd"` with three
spaces, because `" ".join` re-inserts a space on each side of every preserved
separator. -/
theorem to_title_separator_counterexample :
    to_title "ab cd" = "Ab   Cd" ∧ to_title "ab cd" ≠ "Ab Cd" := by
  constructor
  · decide
  · decide

/-- Claim C8 (amended): `to_title` rewrites each whitespace-separated word by
`titleWordCs` (capitalize — first letter upper, rest lower — unless the word
is fully uppercase and longer than one character), but renders every
single-space separator of the normalized input as three spaces in the output:
the result is the `titleWordCs`-image of the word list joined by `"   "`. -/
theorem to_title_word_rule_triple_space (s : String) :
    to_title s = String.mk (joinSep [' ', ' ', ' '] ((splitWords s).map titleWordCs)) := by
  unfold to_title to_titleCs
  cases hws : splitWords s with
  | nil =>
    have hn : normCs s = [] := by simp [normCs, hws, joinSep]
    simp [hn, hws, joinSep]
  | cons w ws =>
    have hwne : w ≠ [] := splitWA_words_ne_nil s.toList [] w (by rw [← splitWords]; simp [hws])
    have hn : normCs s ≠ [] := by
      rw [normCs, hws]
      cases ws with
      | nil => simpa [joinSep] using hwne
      | cons r rest =>
        simp only [joinSep]
        intro hc
        exact hwne (List.append_eq_nil.mp (List.append_eq_nil.mp hc).1).1
    rw [if_neg hn, splitWA_normCs, hws, joinSep_interleave]

/-- Claim C7 (counterexample): `clean_first` is claimed to return `""` for any
single letter optionally followed by a period; the code's initial test
`^[A-Z]\.?$` only matches uppercase letters, so the lowercase initial `"a."`
is not discarded but title-cased to `"A."`. -/
theorem clean_first_lowercase_initial_counterexample :
    clean_first "a." = "A." ∧ clean_first "a." ≠ "" := by
  constructor
  · decide
  · decide

/-- Claim C7 (amended): on a whitespace-free token, `clean_first` returns `""`
exactly when the token is a single character or an uppercase letter optionally
followed by a period (`^[A-Z]\.?$`); every token of length at least 2 that is
not of that initial form is title-cased (`titleWordCs`).  A single lowercase
letter with a trailing period is not an initial for the code and is
title-cased. -/
theorem clean_first_initial_rule (w : List Char)
    (hw : ∀ c ∈ w, c.isWhitespace = false) :
    ((w.length = 1 ∨ isUpperInitialCs w = true) → clean_first (String.mk w) = "") ∧
      (2 ≤ w.length ∧ isUpperInitialCs w = false →
        clean_first (String.mk w) = String.mk (titleWordCs w)) := by
  cases hn : w with
  | nil =>
    constructor
    · rintro (h | h)
      · simp at h
      · simp [isUpperInitialCs] at h
    · rintro ⟨h, -⟩
      simp at h
  | cons a rest =>
    rw [← hn]
    have hwne : w ≠ [] := by simp [hn]
    have hsplit : splitWA w [] = [w] := splitWA_of_no_ws w hw hwne
    have hnorm : normCs (String.mk w) = w := by
      have : (String.mk w).toList = w := rfl
      simp [normCs, splitWords, this, hsplit, joinSep]
    constructor
    · intro h
      have hcond : (w.length = 1 || isUpperInitialCs w) = true := by
        rcases h with h | h
        · simp [h]
        · simp [h]
      simp [clean_first, hnorm, hcond]
    · rintro ⟨h1, h2⟩
      have hcond : (w.length = 1 || isUpperInitialCs w) = false := by
        have : w.length ≠ 1 := by omega
        simp [this, h2]
      have htl : to_title (String.mk w) = String.mk (titleWordCs w) := by
        unfold to_title to_titleCs
        rw [hnorm, if_neg hwne, hsplit]
        simp [interleaveSep, joinSep]
      simp [clean_first, hnorm, hcond, htl]

/-- Witness for the amended C7 theorem at concrete tokens. -/
theorem clean_first_initial_rule_witness :
    clean_first (String.mk ['A']) = "" ∧
      clean_first (String.mk ['a', 'n', 'n', 'a']) = String.mk (titleWordCs ['a', 'n', 'n', 'a']) :=
  ⟨(clean_first_initial_rule ['A'] (by decide)).1 (Or.inl (by decide)),
    (clean_first_initial_rule ['a', 'n', 'n', 'a'] (by decide)).2 ⟨by decide, by decide⟩⟩

/-! ### Roster building (student_input.py: `finalize`, `build_from_separate`)

An input table row is the pair of its first-name and last-name cells; a
roster entry is `(tracking_id, (first_name, last_name))`.  `finalize`
(student_input.py:99-106) filters out rows with both names empty, sorts by
`(first_name, last_name)` ascending with pandas' stable `"mergesort"` kind,
and assigns `tracking_id = 100 + index` positionally
(`List.enumFrom 100`).  Python compares `str` lexicographically by code
point, which is the `String` linear order used by `rowLE`. -/

/-- Filter of `finalize`: keep a row iff first or last name is non-empty. -/
def keepRow (r : String × String) : Bool :=
  decide (0 < r.1.length) || decide (0 < r.2.length)

/-- Python's `str <`: lexicographic comparison of the code-point
sequences. -/
def csLT : List Char → List Char → Bool
  | [], [] => false
  | [], _ :: _ => true
  | _ :: _, [] => false
  | a :: as, b :: bs =>
    if a < b then true else if b < a then false else csLT as bs

/-- String-level strict comparison. -/
def strLT (a b : String) : Bool := csLT a.toList b.toList

theorem csLT_irrefl : ∀ cs : List Char, csLT cs cs = false
  | [] => rfl
  | a :: as => by simp [csLT, lt_irrefl a, csLT_irrefl as]

theorem csLT_trans : ∀ a b c : List Char,
    csLT a b = true → csLT b c = true → csLT a c = true
  | [], [], _ => by intro h _; simp [csLT] at h
  | [], _ :: _, [] => by intro _ h; simp [csLT] at h
  | [], _ :: _, _ :: _ => by intro _ _; simp [csLT]
  | _ :: _, [], _ => by intro h _; simp [csLT] at h
  | _ :: _, _ :: _, [] => by intro _ h; simp [csLT] at h
  | a :: as, b :: bs, c :: cs => by
    intro h1 h2
    simp only [csLT] at h1 h2 ⊢
    by_cases hab : a < b
    · by_cases hbc : b < c
      · simp [lt_trans hab hbc]
      · by_cases hcb : c < b
        · simp [hbc, hcb] at h2
        · have hbc' : b = c := by
            rcases lt_trichotomy b c with h | h | h
            · exact absurd h hbc
            · exact h
            · exact absurd h hcb
          subst hbc'
          simp [hab]
    · by_cases hba : b < a
      · simp [hab, hba] at h1
      · have hab' : a = b := by
          rcases lt_trichotomy a b with h | h | h
          · exact absurd h hab
          · exact h
          · exact absurd h hba
        subst hab'
        by_cases hac : a < c
        · simp [hac]
        · by_cases hca : c < a
          · simp [hac, hca] at h2
          · rw [if_neg hab, if_neg hba] at h1
            rw [if_neg hac, if_neg hca] at h2 ⊢
            exact csLT_trans as bs cs h1 h2

theorem csLT_conn : ∀ a b : List Char,
    csLT a b = false → csLT b a = false → a = b
  | [], [] => by intro _ _; rfl
  | [], _ :: _ => by intro h _; simp [csLT] at h
  | _ :: _, [] => by intro _ h; simp [csLT] at h
  | a :: as, b :: bs => by
    intro h1 h2
    simp only [csLT] at h1 h2
    by_cases hab : a < b
    · simp [hab] at h1
    · by_cases hba : b < a
      · simp [hba] at h2
      · have hab' : a = b := by
          rcases lt_trichotomy a b with h | h | h
          · exact absurd h hab
          · exact h
          · exact absurd h hba
        subst hab'
        simp only [if_neg hab, if_neg hba] at h1 h2
        rw [csLT_conn as bs h1 h2]

theorem strLT_trans (a b c : String) (h1 : strLT a b = true)
    (h2 : strLT b c = true) : strLT a c = true :=
  csLT_trans a.toList b.toList c.toList h1 h2

theorem strLT_conn (a b : String) (h1 : strLT a b = false)
    (h2 : strLT b a = false) : a = b := by
  have h := csLT_conn a.toList b.toList h1 h2
  cases a
  cases b
  simpa [String.toList] using congrArg String.mk h

theorem strLT_irrefl (a : String) : strLT a a = false :=
  csLT_irrefl a.toList

/-- The sort key order of `finalize`: lexicographic (non-strict) order on
`(first_name, last_name)`, each column compared as Python compares `str`. -/
def rowLE (a b : String × String) : Bool :=
  strLT a.1 b.1 || (a.1 == b.1 && (strLT a.2 b.2 || a.2 == b.2))

theorem rowLE_refl (a : String × String) : rowLE a a = true := by
  simp [rowLE]

theorem rowLE_total (a b : String × String) : rowLE a b || rowLE b a := by
  simp only [rowLE, Bool.or_eq_true, Bool.and_eq_true, beq_iff_eq]
  by_cases h1 : strLT a.1 b.1 = true
  · exact Or.inl (Or.inl h1)
  · by_cases h2 : strLT b.1 a.1 = true
    · exact Or.inr (Or.inl h2)
    · have he : a.1 = b.1 :=
        strLT_conn a.1 b.1 (Bool.not_eq_true _ ▸ h1) (Bool.not_eq_true _ ▸ h2)
      by_cases h3 : strLT a.2 b.2 = true
      · exact Or.inl (Or.inr ⟨he, Or.inl h3⟩)
      · by_cases h4 : strLT b.2 a.2 = true
        · exact Or.inr (Or.inr ⟨he.symm, Or.inl h4⟩)
        · have he2 : a.2 = b.2 :=
            strLT_conn a.2 b.2 (Bool.not_eq_true _ ▸ h3) (Bool.not_eq_true _ ▸ h4)

          exact Or.inl (Or.inr ⟨he, Or.inr he2⟩)

theorem strLT_asymm (a b : String) (h : strLT a b = true) : strLT b a = false := by
  by_cases h2 : strLT b a = true
  · have := strLT_trans a b a h h2
    rw [strLT_irrefl a] at this
    cases this
  · exact Bool.not_eq_true _ ▸ h2

theorem rowLE_trans (a b c : String × String)
    (hab : rowLE a b = true) (hbc : rowLE b c = true) : rowLE a c = true := by
  simp only [rowLE, Bool.or_eq_true, Bool.and_eq_true, beq_iff_eq] at *
  rcases hab with h1 | ⟨h1, h1'⟩ <;> rcases hbc with h2 | ⟨h2, h2'⟩
  · exact Or.inl (strLT_trans _ _ _ h1 h2)
  · exact Or.inl (h2 ▸ h1)
  · exact Or.inl (h1 ▸ h2)
  · refine Or.inr ⟨h1.trans h2, ?_⟩
    rcases h1' with h1' | h1' <;> rcases h2' with h2' | h2'
    · exact Or.inl (strLT_trans _ _ _ h1' h2')
    · exact Or.inl (h2' ▸ h1')
    · exact Or.inl (h1' ▸ h2')
    · exact Or.inr (h1'.trans h2')

theorem rowLE_antisymm (a b : String × String)
    (hab : rowLE a b = true) (hba : rowLE b a = true) : a = b := by
  simp only [rowLE, Bool.or_eq_true, Bool.and_eq_true, beq_iff_eq] at *
  rcases hab with h1 | ⟨h1, h1'⟩ <;> rcases hba with h2 | ⟨h2, h2'⟩
  · rw [strLT_asymm a.1 b.1 h1] at h2
    cases h2
  · rw [h2, strLT_irrefl] at h1
    cases h1
  · rw [h1, strLT_irrefl] at h2
    cases h2
  · refine Prod.ext h1 ?_
    rcases h1' with h1' | h1' <;> rcases h2' with h2' | h2'
    · rw [strLT_asymm a.2 b.2 h1'] at h2'
      cases h2'
    · rw [h2', strLT_irrefl] at h1'
      cases h1'
    · rw [h1', strLT_irrefl] at h2'
      cases h2'
    · exact h1'

/-- Embedding of `finalize` (student_input.py:99-106): filter, stable sort by
`(first_name, last_name)`, assign `tracking_id = 100 + index`. -/
def finalize (rows : List (String × String)) : List (Nat × String × String) :=
  List.enumFrom 100 ((rows.filter keepRow).mergeSort rowLE)

/-- The column normalization of `build_from_separate`
(student_input.py:93-96): `clean_first` on the first-name column, `to_title`
on the last-name column. -/
def normalizeSeparate (rows : List (String × String)) : List (String × String) :=
  rows.map (fun r => (clean_first r.1, to_title r.2))

/-- Embedding of `build_from_separate` (student_input.py:89-97). -/
def build_from_separate (rows : List (String × String)) : List (Nat × String × String) :=
  finalize (normalizeSeparate rows)

/-- Executable form of `finalize`: insertion sort is also a stable sort, and
agrees with `mergeSort` for the antisymmetric total order `rowLE`
(`List.mergeSort_eq_insertionSort`); used to evaluate `finalize` on concrete
inputs. -/
def finalizeEval (rows : List (String × String)) : List (Nat × String × String) :=
  List.enumFrom 100
    ((rows.filter keepRow).insertionSort (fun a b => rowLE a b = true))

theorem finalize_eq_finalizeEval (rows : List (String × String)) :
    finalize rows = finalizeEval rows := by
  haveI : IsTotal (String × String) (fun a b => rowLE a b = true) := by
    refine ⟨fun a b => ?_⟩
    rcases Bool.or_eq_true_iff.mp (rowLE_total a b) with h | h
    · exact Or.inl h
    · exact Or.inr h
  haveI : IsTrans (String × String) (fun a b => rowLE a b = true) :=
    ⟨fun a b c => rowLE_trans a b c⟩
  haveI : IsAntisymm (String × String) (fun a b => rowLE a b = true) :=
    ⟨fun a b => rowLE_antisymm a b⟩
  have h := List.mergeSort_eq_insertionSort
    (r := fun a b : String × String => rowLE a b = true) (rows.filter keepRow)
  have hfun : (fun a b : String × String =>
      decide ((fun x y : String × String => rowLE x y = true) a b)) = rowLE := by
    funext a b
    show decide (rowLE a b = true) = rowLE a b
    cases hab : rowLE a b <;> simp [hab]
  rw [hfun] at h
  rw [finalize, finalizeEval, h]

example : finalizeEval [("Bob", "Ng"), ("", ""), ("Amy", "Wu")]
    = [(100, ("Amy", "Wu")), (101, ("Bob", "Ng"))] := by decide

/-- Pairwise over a filter keeping only elements equal to `k` holds for any
relation satisfied at `(k, k)`. -/
theorem pairwise_filter_eq_key {α : Type} [DecidableEq α] (l : List α) (k : α)
    (R : α → α → Prop) (hk : R k k) :
    (l.filter (fun x => decide (x = k))).Pairwise R := by
  induction l with
  | nil => simp
  | cons a t ih =>
    by_cases ha : a = k
    · have hc : (decide (a = k)) = true := by simpa using ha
      rw [List.filter_cons, if_pos hc]
      refine List.pairwise_cons.mpr ⟨fun b hb => ?_, ih⟩
      have hbk : b = k := by simpa using (List.mem_filter.mp hb).2
      rw [ha, hbk]
      exact hk
    · rw [List.filter_cons, if_neg (by simpa using ha)]
      exact ih

/-- Stability of the sort in `finalize`: the sorted list restricted to any
fixed key equals the input restricted to that key (ties keep input order). -/
theorem mergeSort_rowLE_stable (l : List (String × String)) (k : String × String) :
    ((l.mergeSort rowLE).filter (fun x => decide (x = k)))
      = l.filter (fun x => decide (x = k)) := by
  have hsub : List.Sublist (l.filter (fun x => decide (x = k))) (l.mergeSort rowLE) :=
    List.sublist_mergeSort rowLE_trans rowLE_total
      (pairwise_filter_eq_key l k _ (rowLE_refl k))
      (List.filter_sublist l)
  have hself : (l.filter (fun x => decide (x = k))).filter (fun x => decide (x = k))
      = l.filter (fun x => decide (x = k)) := by
    rw [List.filter_filter]
    simp
  have hsubf : List.Sublist (l.filter (fun x => decide (x = k)))
      ((l.mergeSort rowLE).filter (fun x => decide (x = k))) := by
    have := hsub.filter (fun x => decide (x = k))
    rwa [hself] at this
  have hlen : ((l.mergeSort rowLE).filter (fun x => decide (x = k))).length
      = (l.filter (fun x => decide (x = k))).length :=
    ((List.mergeSort_perm l rowLE).filter _).length_eq
  exact (hsubf.eq_of_length hlen.symm).symm

/-- Claim C1: for every input table, the roster built by the separate-columns
importer consists of exactly the rows whose normalized first and last names
are not both empty (as a permutation, restated exactly per key by the
stability clause), is ordered ascending by `(first_name, last_name)` with
ties in input order (stable sort), and the tracking ids over that order are
the contiguous duplicate-free sequence `100, 101, ...`. -/
theorem finalize_sorted_contiguous_ids (rows : List (String × String)) :
    ((build_from_separate rows).map (fun e => e.2)).Perm
        ((normalizeSeparate rows).filter keepRow) ∧
      ((build_from_separate rows).map (fun e => e.2)).Pairwise
        (fun a b => rowLE a b = true) ∧
      (∀ k, ((build_from_separate rows).map (fun e => e.2)).filter
            (fun x => decide (x = k))
          = ((normalizeSeparate rows).filter keepRow).filter (fun x => decide (x = k))) ∧
      (build_from_separate rows).map (fun e => e.1)
        = List.range' 100 ((normalizeSeparate rows).filter keepRow).length ∧
      ((build_from_separate rows).map (fun e => e.1)).Nodup := by
  set kept := (normalizeSeparate rows).filter keepRow with hkept
  have hsnd : (build_from_separate rows).map (fun e => e.2)
      = kept.mergeSort rowLE := by
    rw [build_from_separate, finalize, ← hkept]
    exact List.enumFrom_map_snd 100 (kept.mergeSort rowLE)
  have hfst : (build_from_separate rows).map (fun e => e.1)
      = List.range' 100 kept.length := by
    rw [build_from_separate, finalize, ← hkept]
    have := List.enumFrom_map_fst 100 (kept.mergeSort rowLE)
    rwa [List.length_mergeSort] at this
  refine ⟨?_, ?_, ?_, hfst, ?_⟩
  · rw [hsnd]
    exact List.mergeSort_perm kept rowLE
  · rw [hsnd]
    exact List.sorted_mergeSort rowLE_trans rowLE_total kept
  · intro k
    rw [hsnd]
    exact mergeSort_rowLE_stable kept k
  · rw [hfst]
    exact List.nodup_range' 100 kept.length

/-! ### Roster store (student_input.py `to_sqlite`,
live_scanner_static.py `fetch_name_by_tracking_id`) -/

/-- A row of the `names` table as the scanner reads it.  `to_sqlite` in
`replace` mode (student_input.py:108-120) drops and recreates the table from
exactly the roster rows (the audit columns `imported_at`/`source_file` are
not read by lookup and are omitted). -/
structure NameRow where
  tracking_id : Nat
  first_name : String
  last_name : String
deriving DecidableEq, Repr

/-- The `names` table produced by importing a built roster in `replace`
mode. -/
def namesTable (roster : List (Nat × String × String)) : List NameRow :=
  roster.map (fun e => ⟨e.1, e.2.1, e.2.2⟩)

/-- Embedding of `fetch_name_by_tracking_id` (live_scanner_static.py:54-60):
first row of the table with the given `tracking_id`, if any. -/
def fetch_name_by_tracking_id (names : List NameRow) (tid : Nat) :
    Option (String × String) :=
  (names.find? (fun r => r.tracking_id == tid)).map
    (fun r => (r.first_name, r.last_name))

theorem find?_key_of_nodup (l : List NameRow)
    (hnd : (l.map (fun r => r.tracking_id)).Nodup) (r : NameRow) (hr : r ∈ l) :
    l.find? (fun x => x.tracking_id == r.tracking_id) = some r := by
  induction l with
  | nil => cases hr
  | cons b t ih =>
    rcases List.mem_cons.mp hr with rfl | hr
    · simp [List.find?]
    · have hnd' := List.nodup_cons.mp (by rwa [List.map_cons] at hnd)
      have hb : (b.tracking_id == r.tracking_id) = false := by
        rw [beq_eq_false_iff_ne]
        intro h
        apply hnd'.1
        rw [h]
        exact List.mem_map_of_mem _ hr
      rw [List.find?_cons_of_neg _ (by simp [hb]), ih hnd'.2 hr]

/-- Claim C2: after importing a roster built by `finalize` in replace mode,
looking up every assigned tracking id returns exactly the
`(first_name, last_name)` pair of the entry that received that id. -/
theorem roster_lookup_roundtrip (rows : List (String × String)) :
    ∀ e ∈ build_from_separate rows,
      fetch_name_by_tracking_id (namesTable (build_from_separate rows)) e.1
        = some (e.2.1, e.2.2) := by
  intro e he
  have hnd : ((namesTable (build_from_separate rows)).map
      (fun r => r.tracking_id)).Nodup := by
    have hcomp : (namesTable (build_from_separate rows)).map
        (fun r => r.tracking_id) = (build_from_separate rows).map (fun e => e.1) := by
      rw [namesTable, List.map_map]
      rfl
    rw [hcomp, build_from_separate, finalize]
    have := List.enumFrom_map_fst 100
      (((normalizeSeparate rows).filter keepRow).mergeSort rowLE)
    rw [this]
    exact List.nodup_range' 100 _
  have hmem : (⟨e.1, e.2.1, e.2.2⟩ : NameRow) ∈ namesTable (build_from_separate rows) := by
    rw [namesTable]
    exact List.mem_map_of_mem _ he
  have hfind := find?_key_of_nodup _ hnd _ hmem
  simp [fetch_name_by_tracking_id, hfind]

/-- Witness for the C2 round-trip at a concrete imported roster. -/
theorem roster_lookup_roundtrip_witness :
    (100, ("Amy", "Wu")) ∈ build_from_separate [("bob", "ng"), ("amy", "wu")] ∧
      fetch_name_by_tracking_id
          (namesTable (build_from_separate [("bob", "ng"), ("amy", "wu")])) 100
        = some ("Amy", "Wu") := by
  have hm : (100, ("Amy", "Wu")) ∈ build_from_separate [("bob", "ng"), ("amy", "wu")] := by
    rw [build_from_separate, finalize_eq_finalizeEval]
    decide
  exact ⟨hm, roster_lookup_roundtrip [("bob", "ng"), ("amy", "wu")] _ hm⟩

/-! ### Time, events and sinks (live_scanner_static.py)

Each `datetime.now()` call in the code is modelled as one explicit `Instant`
argument.  The scans table is the list of its rows in insertion order; the
daily-CSV output tree is an association list from file path to the list of
written CSV lines. -/

/-- A wall-clock instant, to the precision the scanner reads
(`%H:%M` time and `%m/%d/%Y` date fields). -/
structure Instant where
  year : Nat
  month : Nat
  day : Nat
  hour : Nat
  minute : Nat
deriving DecidableEq, Repr

/-- Zero-pad a numeral to two digits, as `strftime` does for
`%H %M %m %d`. -/
def pad2 (n : Nat) : String :=
  if n < 10 then "0" ++ toString n else toString n

/-- `now.strftime("%H:%M")`. -/
def fmtHHMM (t : Instant) : String :=
  pad2 t.hour ++ ":" ++ pad2 t.minute

/-- `now.strftime("%m:%d:%Y")`. -/
def fmtMDY (t : Instant) : String :=
  pad2 t.month ++ ":" ++ pad2 t.day ++ ":" ++ toString t.year

/-- A row of the `scans` table (live_scanner_static.py:41-52), minus the
auto-increment surrogate key (the table is insertion-ordered, which the list
order models). -/
structure Event where
  tracking_id : Nat
  first_name : String
  last_name : String
  time_hhmm : String
  date_mmddyyyy : String
deriving DecidableEq, Repr

/-- One line of a daily CSV file: the header or one event row (the
`DictWriter` field order is fixed, so a row is determined by its event). -/
inductive CsvLine where
  | header
  | row (e : Event)
deriving DecidableEq, Repr

/-- The daily-CSV output tree: association list from path to file content. -/
abbrev FS : Type := List (String × List CsvLine)

/-- Content of the file at `p`, if it exists. -/
def fsGet (fs : FS) (p : String) : Option (List CsvLine) :=
  (fs.find? (fun b => b.1 == p)).map (fun b => b.2)

/-- Write the file at `p` (replace the first binding in place, or create the
file). -/
def fsSet (fs : FS) (p : String) (c : List CsvLine) : FS :=
  match fs with
  | [] => [(p, c)]
  | b :: rest => if b.1 == p then (p, c) :: rest else b :: fsSet rest p c

/-- Embedding of `mkEvent` data flow inside `insert_scan`
(live_scanner_static.py:62-72): the row built from one `datetime.now()`
capture. -/
def mkEvent (t : Instant) (tid : Nat) (first last : String) : Event :=
  ⟨tid, first, last, fmtHHMM t, fmtMDY t⟩

/-- Embedding of `insert_scan` (live_scanner_static.py:62-72): capture `now`,
derive `HH:MM` and `MM:DD:YYYY` from it, insert the row, commit, and return
the two strings. -/
def insert_scan (scans : List Event) (t : Instant) (tid : Nat)
    (first last : String) : List Event × String × String :=
  (scans ++ [mkEvent t tid first last], fmtHHMM t, fmtMDY t)

/-- Embedding of `get_daily_csv_path` (live_scanner_static.py:77-82):
`<root>/<MM_YYYY>/<MM_DD_YYYY>.csv` (the `mkdir` of the month directory is
implicit in the association-list filesystem). -/
def get_daily_csv_path (base : String) (t : Instant) : String :=
  base ++ "/" ++ pad2 t.month ++ "_" ++ toString t.year ++ "/" ++
    pad2 t.month ++ "_" ++ pad2 t.day ++ "_" ++ toString t.year ++ ".csv"

/-- Embedding of `append_daily_csv` (live_scanner_static.py:84-99): take a
fresh `datetime.now()` (the argument `t` — distinct from the capture inside
`insert_scan`), resolve the daily path from it, append the row, writing the
header first iff the file did not previously exist; return the path. -/
def append_daily_csv (fs : FS) (base : String) (t : Instant) (e : Event) :
    FS × String :=
  let p := get_daily_csv_path base t
  match fsGet fs p with
  | none => (fsSet fs p [CsvLine.header, CsvLine.row e], p)
  | some c => (fsSet fs p (c ++ [CsvLine.row e]), p)

/-- Embedding of `normalize_scan` (live_scanner_static.py:187-194): strip all
non-digit characters; `none` if nothing remains, otherwise the decimal value
of the digit string. -/
def normalize_scan (s : String) : Option Nat :=
  let digits := s.toList.filter (fun c => c.isDigit)
  if digits.isEmpty then none
  else some (digits.foldl (fun a c => a * 10 + (c.toNat - 48)) 0)

example : normalize_scan "id: 104 !" = some 104 := by decide
example : normalize_scan "hello!" = none := by decide

/-- The scanner's mutable state at the top of each loop iteration: committed
scans table, daily-CSV tree, rolling history (newest first). -/
structure ScanState where
  scans : List Event
  fs : FS
  history : List Event
deriving DecidableEq

/-- The status message the loop displays after a cycle
(live_scanner_static.py:239, 245, 268-269, 277). -/
inductive Status where
  | invalidScan (raw : String)
  | idNotFound (tid : Nat)
  | success (tid : Nat) (first last hhmm mdy path : String)
  | errorMsg (msg : String)
deriving DecidableEq, Repr

/-- Fault injection for one cycle: `ok` = no exception; `insertFail` = the
relational insert raises (nothing is committed); `csvFail` = the insert
commits and then `append_daily_csv` raises.  Both failures are caught by the
`except` at live_scanner_static.py:276 and surface as an error status. -/
inductive Fault where
  | ok
  | insertFail
  | csvFail
deriving DecidableEq, Repr

/-- `deque(maxlen=3).appendleft`: prepend, keep at most 3. -/
def pushHistory (h : List Event) (e : Event) : List Event :=
  (e :: h).take 3

/-- One iteration of the scan loop (live_scanner_static.py:237-280):
normalize the input, look the id up, and on a hit insert into the scans
table (committed), then append to the daily CSV, then update the history.
`t1` is the `datetime.now()` of `insert_scan`, `t2` the one of
`append_daily_csv`. -/
def cycle (names : List NameRow) (base : String) (t1 t2 : Instant)
    (fault : Fault) (st : ScanState) (raw : String) : ScanState × Status :=
  match normalize_scan raw with
  | none => (st, Status.invalidScan raw)
  | some tid =>
    match fetch_name_by_tracking_id names tid with
    | none => (st, Status.idNotFound tid)
    | some (first, last) =>
      match fault with
      | Fault.insertFail => (st, Status.errorMsg "insert failed")
      | Fault.csvFail =>
          ({ st with scans := (insert_scan st.scans t1 tid first last).1 },
            Status.errorMsg "csv append failed")
      | Fault.ok =>
          let e := mkEvent t1 tid first last
          ({ scans := (insert_scan st.scans t1 tid first last).1,
             fs := (append_daily_csv st.fs base t2 e).1,
             history := pushHistory st.history e },
            Status.success tid first last (fmtHHMM t1) (fmtMDY t1)
              ((append_daily_csv st.fs base t2 e).2))

/-- The successive (scans table, CSV tree) snapshots of one cycle, one per
primitive write boundary: initial state; after the committed insert; after
the CSV append.  A cycle that fails partway stops at the corresponding
prefix, so members of this list are exactly the sink states an execution of
the cycle can be observed in. -/
def sinkTrace (names : List NameRow) (base : String) (t1 t2 : Instant)
    (fault : Fault) (st : ScanState) (raw : String) : List (List Event × FS) :=
  match normalize_scan raw with
  | none => [(st.scans, st.fs)]
  | some tid =>
    match fetch_name_by_tracking_id names tid with
    | none => [(st.scans, st.fs)]
    | some (first, last) =>
      match fault with
      | Fault.insertFail => [(st.scans, st.fs)]
      | Fault.csvFail =>
          [(st.scans, st.fs),
           ((insert_scan st.scans t1 tid first last).1, st.fs)]
      | Fault.ok =>
          [(st.scans, st.fs),
           ((insert_scan st.scans t1 tid first last).1, st.fs),
           ((insert_scan st.scans t1 tid first last).1,
            (append_daily_csv st.fs base t2 (mkEvent t1 tid first last)).1)]

/-- A file content holds a data row for event `e`. -/
def fileHasRow (c : List CsvLine) (e : Event) : Bool :=
  c.any (fun l => l == CsvLine.row e)

/-- The CSV tree holds a data row for event `e` in some file. -/
def csvHasRow (fs : FS) (e : Event) : Bool :=
  fs.any (fun b => fileHasRow b.2 e)

/-! ### Association-list filesystem lemmas -/

theorem fsGet_fsSet_self : ∀ (fs : FS) (p : String) (c : List CsvLine),
    fsGet (fsSet fs p c) p = some c
  | [], p, c => by simp [fsGet, fsSet, List.find?]
  | b :: rest, p, c => by
    by_cases hb : (b.1 == p) = true
    · simp [fsSet, hb, fsGet, List.find?]
    · simp only [fsSet, hb, Bool.false_eq_true, if_false]
      simp only [fsGet, List.find?, hb]
      exact fsGet_fsSet_self rest p c

theorem fsGet_fsSet_ne : ∀ (fs : FS) (p q : String) (c : List CsvLine),
    q ≠ p → fsGet (fsSet fs p c) q = fsGet fs q
  | [], p, q, c => by
    intro h
    have : (p == q) = false := by simpa [beq_eq_false_iff_ne] using (Ne.symm h)
    simp [fsGet, fsSet, List.find?, this]
  | b :: rest, p, q, c => by
    intro h
    have hpq : (p == q) = false := by simpa [beq_eq_false_iff_ne] using (Ne.symm h)
    by_cases hb : (b.1 == p) = true
    · have hbq : (b.1 == q) = false := by
        rw [beq_eq_false_iff_ne]
        rw [beq_iff_eq] at hb
        rw [hb]
        exact Ne.symm h
      simp [fsSet, hb, fsGet, List.find?, hpq, hbq]
    · simp only [fsSet, hb, Bool.false_eq_true, if_false]
      by_cases hbq : (b.1 == q) = true
      · simp [fsGet, List.find?, hbq]
      · simp only [fsGet, List.find?, hbq, Bool.false_eq_true]
        exact fsGet_fsSet_ne rest p q c h

theorem fsSet_of_fsGet_none : ∀ (fs : FS) (p : String) (c : List CsvLine),
    fsGet fs p = none → fsSet fs p c = fs ++ [(p, c)]
  | [], p, c => by intro _; rfl
  | b :: rest, p, c => by
    intro h
    simp only [fsGet, List.find?] at h
    by_cases hb : (b.1 == p) = true
    · simp [hb] at h
    · simp only [hb, Bool.false_eq_true] at h
      simp only [fsSet, hb, Bool.false_eq_true, if_false, List.cons_append,
        List.cons.injEq, true_and]
      exact fsSet_of_fsGet_none rest p c (by simpa [fsGet] using h)

/-- If a row is present somewhere in the tree and the file at `p` receives
its old content (as read by `fsGet`) extended by `add`, the row is still
present. -/
theorem csvHasRow_fsSet_extend : ∀ (fs : FS) (p : String) (add : List CsvLine)
    (x : Event), csvHasRow fs x = true →
    csvHasRow (fsSet fs p (((fsGet fs p).getD []) ++ add)) x = true
  | [], p, add, x => by simp [csvHasRow]
  | b :: rest, p, add, x => by
    intro h
    simp only [csvHasRow, List.any_cons, Bool.or_eq_true] at h
    by_cases hb : (b.1 == p) = true
    · have hget : fsGet (b :: rest) p = some b.2 := by
        simp [fsGet, List.find?, hb]
      rw [hget]
      simp only [fsSet, hb, if_true]
      simp only [csvHasRow, List.any_cons, Bool.or_eq_true]
      rcases h with h | h
      · left
        simp only [fileHasRow, List.any_append, Bool.or_eq_true, Option.getD_some]
        exact Or.inl h
      · right
        exact h
    · have hget : fsGet (b :: rest) p = fsGet rest p := by
        simp [fsGet, List.find?, hb]
      rw [hget]
      simp only [fsSet, hb, Bool.false_eq_true, if_false]
      simp only [csvHasRow, List.any_cons, Bool.or_eq_true]
      rcases h with h | h
      · exact Or.inl h
      · exact Or.inr (csvHasRow_fsSet_extend rest p add x h)

/-- Any binding of the updated tree satisfying a predicate is either the
updated binding or an original binding satisfying it. -/
theorem any_fsSet_elim : ∀ (fs : FS) (p : String) (c : List CsvLine)
    (q : String × List CsvLine → Bool),
    (fsSet fs p c).any q = true → q (p, c) = true ∨ fs.any q = true
  | [], p, c, q => by
    intro h
    simp only [fsSet, List.any_cons, List.any_nil, Bool.or_false] at h
    exact Or.inl h
  | b :: rest, p, c, q => by
    intro h
    by_cases hb : (b.1 == p) = true
    · simp only [fsSet, hb, if_true, List.any_cons, Bool.or_eq_true] at h
      rcases h with h | h
      · exact Or.inl h
      · exact Or.inr (by simp [List.any_cons, h])
    · simp only [fsSet, hb, Bool.false_eq_true, if_false, List.any_cons,
        Bool.or_eq_true] at h
      rcases h with h | h
      · exact Or.inr (by simp [List.any_cons, h])
      · rcases any_fsSet_elim rest p c q h with h | h
        · exact Or.inl h
        · exact Or.inr (by simp [List.any_cons, h])

/-- A row present in the file `fsGet` reads at `p` is present in the tree. -/
theorem csvHasRow_of_fsGet : ∀ (fs : FS) (p : String) (c : List CsvLine)
    (x : Event), fsGet fs p = some c → fileHasRow c x = true →
    csvHasRow fs x = true
  | [], p, c, x => by intro h _; simp [fsGet, List.find?] at h
  | b :: rest, p, c, x => by
    intro hg hx
    by_cases hb : (b.1 == p) = true
    · have : b.2 = c := by simpa [fsGet, List.find?, hb] using hg
      simp only [csvHasRow, List.any_cons, Bool.or_eq_true]
      exact Or.inl (this ▸ hx)
    · have hg' : fsGet rest p = some c := by simpa [fsGet, List.find?, hb] using hg
      simp only [csvHasRow, List.any_cons, Bool.or_eq_true]
      exact Or.inr (csvHasRow_of_fsGet rest p c x hg' hx)

/-- `append_daily_csv` preserves every row already present. -/
theorem csvHasRow_append_mono (fs : FS) (base : String) (t : Instant)
    (e x : Event) (h : csvHasRow fs x = true) :
    csvHasRow (append_daily_csv fs base t e).1 x = true := by
  cases hg : fsGet fs (get_daily_csv_path base t) with
  | none =>
    simp only [append_daily_csv, hg]
    have := csvHasRow_fsSet_extend fs (get_daily_csv_path base t)
      [CsvLine.header, CsvLine.row e] x h
    rwa [hg, Option.getD_none, List.nil_append] at this
  | some c =>
    simp only [append_daily_csv, hg]
    have := csvHasRow_fsSet_extend fs (get_daily_csv_path base t)
      [CsvLine.row e] x h
    rwa [hg, Option.getD_some] at this

/-- Every row present after `append_daily_csv` is the appended row or was
already present. -/
theorem csvHasRow_append_elim (fs : FS) (base : String) (t : Instant)
    (e x : Event) (h : csvHasRow (append_daily_csv fs base t e).1 x = true) :
    x = e ∨ csvHasRow fs x = true := by
  cases hg : fsGet fs (get_daily_csv_path base t) with
  | none =>
    simp only [append_daily_csv, hg] at h
    simp only [csvHasRow] at h
    rcases any_fsSet_elim _ _ _ _ h with h | h
    · simp only [fileHasRow, List.any_cons, List.any_nil, Bool.or_false,
        Bool.or_eq_true, beq_iff_eq] at h
      rcases h with h | h
      · cases h
      · exact Or.inl (by injection h with he; exact he.symm)
    · exact Or.inr h
  | some c =>
    simp only [append_daily_csv, hg] at h
    simp only [csvHasRow] at h
    rcases any_fsSet_elim _ _ _ _ h with h | h
    · simp only [fileHasRow, List.any_append, List.any_cons, List.any_nil,
        Bool.or_false, Bool.or_eq_true, beq_iff_eq] at h
      rcases h with h | h
      · exact Or.inr (csvHasRow_of_fsGet fs _ c x hg h)
      · exact Or.inl (by injection h with he; exact he.symm)
    · exact Or.inr h

/-- The appended row is present after `append_daily_csv`. -/
theorem csvHasRow_append_self (fs : FS) (base : String) (t : Instant)
    (e : Event) : csvHasRow (append_daily_csv fs base t e).1 e = true := by
  cases hg : fsGet fs (get_daily_csv_path base t) with
  | none =>
    simp only [append_daily_csv, hg]
    apply csvHasRow_of_fsGet _ (get_daily_csv_path base t)
      [CsvLine.header, CsvLine.row e]
    · exact fsGet_fsSet_self fs _ _
    · simp [fileHasRow]
  | some c =>
    simp only [append_daily_csv, hg]
    apply csvHasRow_of_fsGet _ (get_daily_csv_path base t) (c ++ [CsvLine.row e])
    · exact fsGet_fsSet_self fs _ _
    · simp [fileHasRow]

/-! ### Concrete fixtures for witnesses and counterexamples -/

/-- A one-student roster table holding tracking id 104. -/
def names104 : List NameRow := [⟨104, "Jane", "Smith"⟩]

/-- 2026-10-11, 23:59. -/
def tLate : Instant := ⟨2026, 10, 11, 23, 59⟩

/-- 2026-10-12, 00:00 — the next calendar day. -/
def tNext : Instant := ⟨2026, 10, 12, 0, 0⟩

/-- 2026-10-11, 09:05 — same calendar day as `tLate`. -/
def tMorn : Instant := ⟨2026, 10, 11, 9, 5⟩

/-- The scanner's initial state: empty scans table, empty output tree, empty
history. -/
def st0 : ScanState := ⟨[], [], []⟩

/-- Claim C3: for every successful scan the relational insert is committed
strictly before the CSV append begins: the final sink state of a cycle is on
the cycle's write trace, and every sink state on the trace — including the
states a partway-failed cycle stops in — has each CSV row backed by a
committed scans-table row (assuming the invariant held at entry). -/
theorem table_before_csv_invariant (names : List NameRow) (base : String)
    (t1 t2 : Instant) (fault : Fault) (st : ScanState) (raw : String)
    (hInv : ∀ e, csvHasRow st.fs e = true → e ∈ st.scans) :
    (((cycle names base t1 t2 fault st raw).1.scans,
        (cycle names base t1 t2 fault st raw).1.fs)
      ∈ sinkTrace names base t1 t2 fault st raw) ∧
    ∀ s ∈ sinkTrace names base t1 t2 fault st raw,
      ∀ e, csvHasRow s.2 e = true → e ∈ s.1 := by
  cases hn : normalize_scan raw with
  | none =>
    constructor
    · simp [cycle, sinkTrace, hn]
    · intro s hs e he
      simp only [sinkTrace, hn, List.mem_singleton] at hs
      subst hs
      exact hInv e he
  | some tid =>
    cases hf : fetch_name_by_tracking_id names tid with
    | none =>
      constructor
      · simp [cycle, sinkTrace, hn, hf]
      · intro s hs e he
        simp only [sinkTrace, hn, hf, List.mem_singleton] at hs
        subst hs
        exact hInv e he
    | some nm =>
      obtain ⟨first, last⟩ := nm
      cases fault with
      | insertFail =>
        constructor
        · simp [cycle, sinkTrace, hn, hf]
        · intro s hs e he
          simp only [sinkTrace, hn, hf, List.mem_singleton] at hs
          subst hs
          exact hInv e he
      | csvFail =>
        constructor
        · simp [cycle, sinkTrace, hn, hf]
        · intro s hs e he
          simp only [sinkTrace, hn, hf, List.mem_cons, List.mem_singleton,
            List.not_mem_nil, or_false] at hs
          rcases hs with hs | hs <;> subst hs
          · exact hInv e he
          · simp only [insert_scan]
            exact List.mem_append_left _ (hInv e he)
      | ok =>
        constructor
        · simp [cycle, sinkTrace, hn, hf]
        · intro s hs e he
          simp only [sinkTrace, hn, hf, List.mem_cons, List.mem_singleton,
            List.not_mem_nil, or_false] at hs
          rcases hs with hs | hs | hs <;> subst hs
          · exact hInv e he
          · simp only [insert_scan]
            exact List.mem_append_left _ (hInv e he)
          · simp only [insert_scan]
            rcases csvHasRow_append_elim st.fs base t2
                (mkEvent t1 tid first last) e he with h | h
            · subst h
              exact List.mem_append_right _ (List.mem_singleton.mpr rfl)
            · exact List.mem_append_left _ (hInv e h)

/-- Witness for C3 at a concrete partway-failing scan (`csvFail`) from the
empty initial state. -/
theorem table_before_csv_invariant_witness :
    (((cycle names104 "root" tLate tNext Fault.csvFail st0 "id: 104 !").1.scans,
        (cycle names104 "root" tLate tNext Fault.csvFail st0 "id: 104 !").1.fs)
      ∈ sinkTrace names104 "root" tLate tNext Fault.csvFail st0 "id: 104 !") ∧
    ∀ s ∈ sinkTrace names104 "root" tLate tNext Fault.csvFail st0 "id: 104 !",
      ∀ e, csvHasRow s.2 e = true → e ∈ s.1 :=
  table_before_csv_invariant names104 "root" tLate tNext Fault.csvFail st0
    "id: 104 !" (by intro e h; simp [st0, csvHasRow] at h)

/-- Claim C10: invariants of one loop cycle.  Every history entry (and the
event named by a success status) has both the committed insert and the CSV
append completed; when the CSV append raises after the commit, the scans
table has the event but the history is unchanged; the history never exceeds
3 entries and is newest first. -/
theorem history_dual_write_invariant (names : List NameRow) (base : String)
    (t1 t2 : Instant) (fault : Fault) (st : ScanState) (raw : String)
    (hlen : st.history.length ≤ 3)
    (hhist : ∀ e ∈ st.history, e ∈ st.scans ∧ csvHasRow st.fs e = true) :
    ((cycle names base t1 t2 fault st raw).1.history.length ≤ 3 ∧
      (∀ e ∈ (cycle names base t1 t2 fault st raw).1.history,
        e ∈ (cycle names base t1 t2 fault st raw).1.scans ∧
          csvHasRow (cycle names base t1 t2 fault st raw).1.fs e = true)) ∧
    (∀ tid first last hh md p,
      (cycle names base t1 t2 fault st raw).2 = Status.success tid first last hh md p →
        (⟨tid, first, last, hh, md⟩ : Event) ∈ (cycle names base t1 t2 fault st raw).1.scans ∧
        csvHasRow (cycle names base t1 t2 fault st raw).1.fs ⟨tid, first, last, hh, md⟩ = true) ∧
    (∀ tid first last, normalize_scan raw = some tid →
      fetch_name_by_tracking_id names tid = some (first, last) →
      ((fault = Fault.csvFail →
          (cycle names base t1 t2 fault st raw).1.history = st.history ∧
          mkEvent t1 tid first last ∈ (cycle names base t1 t2 fault st raw).1.scans) ∧
       (fault = Fault.ok →
          (cycle names base t1 t2 fault st raw).1.history
            = mkEvent t1 tid first last :: st.history.take 2))) := by
  cases hn : normalize_scan raw with
  | none =>
    refine ⟨⟨by simpa [cycle, hn] using hlen, ?_⟩, ?_, ?_⟩
    · intro e he
      simp only [cycle, hn] at he ⊢
      exact hhist e he
    · intro tid first last hh md p hs
      simp [cycle, hn] at hs
    · intro tid first last hn' _
      cases hn'
  | some tid =>
    cases hf : fetch_name_by_tracking_id names tid with
    | none =>
      refine ⟨⟨by simpa [cycle, hn, hf] using hlen, ?_⟩, ?_, ?_⟩
      · intro e he
        simp only [cycle, hn, hf] at he ⊢
        exact hhist e he
      · intro tid' first last hh md p hs
        simp [cycle, hn, hf] at hs
      · intro tid' first last hn' hf'
        injection hn' with hn'
        subst hn'
        rw [hf] at hf'
        cases hf'
    | some nm =>
      obtain ⟨first, last⟩ := nm
      cases fault with
      | insertFail =>
        refine ⟨⟨by simpa [cycle, hn, hf] using hlen, ?_⟩, ?_, ?_⟩
        · intro e he
          simp only [cycle, hn, hf] at he ⊢
          exact hhist e he
        · intro tid' first' last' hh md p hs
          simp [cycle, hn, hf] at hs
        · intro tid' first' last' hn' hf'
          constructor <;> intro h <;> cases h
      | csvFail =>
        refine ⟨⟨by simpa [cycle, hn, hf] using hlen, ?_⟩, ?_, ?_⟩
        · intro e he
          simp only [cycle, hn, hf] at he ⊢
          obtain ⟨h1, h2⟩ := hhist e he
          exact ⟨List.mem_append_left _ h1, h2⟩
        · intro tid' first' last' hh md p hs
          simp [cycle, hn, hf] at hs
        · intro tid' first' last' hn' hf'
          injection hn' with hn'
          subst hn'
          rw [hf] at hf'
          injection hf' with hf'
          have hfst : first' = first := congrArg Prod.fst hf'.symm
          have hsnd : last' = last := congrArg Prod.snd hf'.symm
          subst hfst
          subst hsnd
          refine ⟨fun _ => ⟨?_, ?_⟩, fun h => ?_⟩
          · simp [cycle, hn, hf]
          · simp only [cycle, hn, hf, insert_scan]
            exact List.mem_append_right _ (List.mem_singleton.mpr rfl)
          · cases h
      | ok =>
        have hself : mkEvent t1 tid first last
            ∈ (cycle names base t1 t2 Fault.ok st raw).1.scans := by
          simp only [cycle, hn, hf, insert_scan]
          exact List.mem_append_right _ (List.mem_singleton.mpr rfl)
        have hcsv : csvHasRow (cycle names base t1 t2 Fault.ok st raw).1.fs
            (mkEvent t1 tid first last) = true := by
          simp only [cycle, hn, hf]
          exact csvHasRow_append_self st.fs base t2 (mkEvent t1 tid first last)
        refine ⟨⟨?_, ?_⟩, ?_, ?_⟩
        · simp only [cycle, hn, hf, pushHistory]
          exact List.length_take_le 3 _
        · intro e he
          simp only [cycle, hn, hf, pushHistory] at he
          have he' : e ∈ mkEvent t1 tid first last :: st.history :=
            List.take_subset _ _ he
          rcases List.mem_cons.mp he' with rfl | he'
          · exact ⟨hself, hcsv⟩
          · obtain ⟨h1, h2⟩ := hhist e he'
            refine ⟨?_, ?_⟩
            · simp only [cycle, hn, hf, insert_scan]
              exact List.mem_append_left _ h1
            · simp only [cycle, hn, hf]
              exact csvHasRow_append_mono st.fs base t2 _ e h2
        · intro tid' first' last' hh md p hs
          simp only [cycle, hn, hf, Status.success.injEq] at hs
          obtain ⟨h1, h2, h3, h4, h5, -⟩ := hs
          have : (⟨tid', first', last', hh, md⟩ : Event)
              = mkEvent t1 tid first last := by
            simp [mkEvent, h1, h2, h3, h4, h5]
          rw [this]
          exact ⟨hself, hcsv⟩
        · intro tid' first' last' hn' hf'
          injection hn' with hn'
          subst hn'
          rw [hf] at hf'
          injection hf' with hf'
          have hfst : first' = first := congrArg Prod.fst hf'.symm
          have hsnd : last' = last := congrArg Prod.snd hf'.symm
          subst hfst
          subst hsnd
          refine ⟨fun h => ?_, fun _ => ?_⟩
          · cases h
          · simp [cycle, hn, hf, pushHistory]

/-- Witness for C10 at a concrete successful scan from the empty initial
state. -/
theorem history_dual_write_invariant_witness :
    ((cycle names104 "root" tLate tNext Fault.ok st0 "id: 104 !").1.history.length ≤ 3 ∧
      (∀ e ∈ (cycle names104 "root" tLate tNext Fault.ok st0 "id: 104 !").1.history,
        e ∈ (cycle names104 "root" tLate tNext Fault.ok st0 "id: 104 !").1.scans ∧
          csvHasRow (cycle names104 "root" tLate tNext Fault.ok st0 "id: 104 !").1.fs e = true)) ∧
    (∀ tid first last hh md p,
      (cycle names104 "root" tLate tNext Fault.ok st0 "id: 104 !").2
          = Status.success tid first last hh md p →
        (⟨tid, first, last, hh, md⟩ : Event)
            ∈ (cycle names104 "root" tLate tNext Fault.ok st0 "id: 104 !").1.scans ∧
        csvHasRow (cycle names104 "root" tLate tNext Fault.ok st0 "id: 104 !").1.fs
            ⟨tid, first, last, hh, md⟩ = true) ∧
    (∀ tid first last, normalize_scan "id: 104 !" = some tid →
      fetch_name_by_tracking_id names104 tid = some (first, last) →
      ((Fault.ok = Fault.csvFail →
          (cycle names104 "root" tLate tNext Fault.ok st0 "id: 104 !").1.history = st0.history ∧
          mkEvent tLate tid first last
            ∈ (cycle names104 "root" tLate tNext Fault.ok st0 "id: 104 !").1.scans) ∧
       (Fault.ok = Fault.ok →
          (cycle names104 "root" tLate tNext Fault.ok st0 "id: 104 !").1.history
            = mkEvent tLate tid first last :: st0.history.take 2))) :=
  history_dual_write_invariant names104 "root" tLate tNext Fault.ok st0 "id: 104 !"
    (by simp [st0]) (by intro e he; simp [st0] at he)

/-- Claim C6: a line with no digit characters is rejected with an
`InvalidScanInput` status carrying the raw text and no state change, and the
rejection is idempotent; a well-formed id absent from the roster yields
`ID_NOT_FOUND` with no state change (no history mutation, no recorder
call). -/
theorem invalid_and_miss_cycles (names : List NameRow) (base : String)
    (t1 t2 : Instant) (fault : Fault) (st : ScanState) (raw : String) :
    ((∀ c ∈ raw.toList, c.isDigit = false) →
      cycle names base t1 t2 fault st raw = (st, Status.invalidScan raw) ∧
      cycle names base t1 t2 fault
          (cycle names base t1 t2 fault st raw).1 raw
        = (st, Status.invalidScan raw)) ∧
    (∀ tid, normalize_scan raw = some tid →
      fetch_name_by_tracking_id names tid = none →
      cycle names base t1 t2 fault st raw = (st, Status.idNotFound tid)) := by
  constructor
  · intro hnd
    have hn : normalize_scan raw = none := by
      have : raw.toList.filter (fun c => c.isDigit) = [] :=
        List.filter_eq_nil_iff.mpr (by intro a ha; simp [hnd a ha])
      simp only [normalize_scan, this, List.isEmpty_nil, if_true]
    have h1 : cycle names base t1 t2 fault st raw = (st, Status.invalidScan raw) := by
      simp [cycle, hn]
    exact ⟨h1, by rw [h1]; simp [cycle, hn]⟩
  · intro tid hn hf
    simp [cycle, hn, hf]

/-- Witness for C6: the digit-free line `"hello!"` and the unknown id
`"999"` against the one-entry roster. -/
theorem invalid_and_miss_cycles_witness :
    (cycle names104 "root" tLate tNext Fault.ok st0 "hello!"
        = (st0, Status.invalidScan "hello!") ∧
      cycle names104 "root" tLate tNext Fault.ok
          (cycle names104 "root" tLate tNext Fault.ok st0 "hello!").1 "hello!"
        = (st0, Status.invalidScan "hello!")) ∧
    cycle names104 "root" tLate tNext Fault.ok st0 "999"
      = (st0, Status.idNotFound 999) :=
  ⟨(invalid_and_miss_cycles names104 "root" tLate tNext Fault.ok st0 "hello!").1
      (by decide),
   (invalid_and_miss_cycles names104 "root" tLate tNext Fault.ok st0 "999").2
      999 (by decide) (by decide)⟩

/-- Claim C4 (counterexample): the CSV file path is derived from a second
`datetime.now()` taken inside `append_daily_csv`, not from the capture that
produced the row's time/date values.  Scanning `"id: 104 !"` with the insert
at 23:59 on 2026-10-11 and the append at 00:00 on 2026-10-12 stores a row
dated `10:11:2026` in the file named `10_12_2026.csv`: the file name does
not encode the row's calendar date. -/
theorem csv_path_second_clock_counterexample :
    (cycle names104 "root" tLate tNext Fault.ok st0 "id: 104 !").1.scans
        = [mkEvent tLate 104 "Jane" "Smith"] ∧
      (mkEvent tLate 104 "Jane" "Smith").date_mmddyyyy = "10:11:2026" ∧
      (cycle names104 "root" tLate tNext Fault.ok st0 "id: 104 !").2
        = Status.success 104 "Jane" "Smith" "23:59" "10:11:2026"
            "root/10_2026/10_12_2026.csv" ∧
      fsGet (cycle names104 "root" tLate tNext Fault.ok st0 "id: 104 !").1.fs
          "root/10_2026/10_12_2026.csv"
        = some [CsvLine.header, CsvLine.row (mkEvent tLate 104 "Jane" "Smith")] ∧
      get_daily_csv_path "root" tLate ≠ "root/10_2026/10_12_2026.csv" := by
  refine ⟨?_, ?_, ?_, ?_, ?_⟩ <;> decide

/-- Claim C4 (amended): for a scan whose extracted digits name a roster id,
exactly one relational row and one CSV row are produced, with identical
tracking id, names, time and date values all derived from the single capture
`t1` taken by `insert_scan`; the CSV path is derived from the second capture
`t2` taken by `append_daily_csv`, so the file name encodes the row's
calendar date exactly when the two captures fall on the same calendar date
(which the hypothesis asserts). -/
theorem scan_single_capture_same_date (names : List NameRow) (base : String)
    (t1 t2 : Instant) (st : ScanState) (raw : String) (tid : Nat)
    (first last : String)
    (hn : normalize_scan raw = some tid)
    (hf : fetch_name_by_tracking_id names tid = some (first, last))
    (hd : t1.month = t2.month ∧ t1.day = t2.day ∧ t1.year = t2.year) :
    (cycle names base t1 t2 Fault.ok st raw).1.scans
        = st.scans ++ [mkEvent t1 tid first last] ∧
      (cycle names base t1 t2 Fault.ok st raw).2
        = Status.success tid first last (fmtHHMM t1) (fmtMDY t1)
            (get_daily_csv_path base t2) ∧
      get_daily_csv_path base t2 = get_daily_csv_path base t1 ∧
      (fsGet st.fs (get_daily_csv_path base t2) = none →
        fsGet (cycle names base t1 t2 Fault.ok st raw).1.fs
            (get_daily_csv_path base t2)
          = some [CsvLine.header, CsvLine.row (mkEvent t1 tid first last)]) ∧
      (∀ c, fsGet st.fs (get_daily_csv_path base t2) = some c →
        fsGet (cycle names base t1 t2 Fault.ok st raw).1.fs
            (get_daily_csv_path base t2)
          = some (c ++ [CsvLine.row (mkEvent t1 tid first last)])) ∧
      (∀ q, q ≠ get_daily_csv_path base t2 →
        fsGet (cycle names base t1 t2 Fault.ok st raw).1.fs q = fsGet st.fs q) := by
  obtain ⟨hm, hdd, hy⟩ := hd
  refine ⟨?_, ?_, ?_, ?_, ?_, ?_⟩
  · simp [cycle, hn, hf, insert_scan]
  · simp only [cycle, hn, hf]
    cases hg : fsGet st.fs (get_daily_csv_path base t2) with
    | none => simp [append_daily_csv, hg]
    | some c => simp [append_daily_csv, hg]
  · simp [get_daily_csv_path, hm, hdd, hy]
  · intro hg
    simp only [cycle, hn, hf, append_daily_csv, hg]
    exact fsGet_fsSet_self st.fs _ _
  · intro c hg
    simp only [cycle, hn, hf, append_daily_csv, hg]
    exact fsGet_fsSet_self st.fs _ _
  · intro q hq
    simp only [cycle, hn, hf]
    cases hg : fsGet st.fs (get_daily_csv_path base t2) with
    | none =>
      simp only [append_daily_csv, hg]
      exact fsGet_fsSet_ne st.fs _ q _ hq
    | some c =>
      simp only [append_daily_csv, hg]
      exact fsGet_fsSet_ne st.fs _ q _ hq

/-- Witness for the amended C4 at a same-date pair of captures. -/
theorem scan_single_capture_same_date_witness :
    (cycle names104 "root" tLate tMorn Fault.ok st0 "id: 104 !").1.scans
        = st0.scans ++ [mkEvent tLate 104 "Jane" "Smith"] ∧
      (cycle names104 "root" tLate tMorn Fault.ok st0 "id: 104 !").2
        = Status.success 104 "Jane" "Smith" (fmtHHMM tLate) (fmtMDY tLate)
            (get_daily_csv_path "root" tMorn) ∧
      get_daily_csv_path "root" tMorn = get_daily_csv_path "root" tLate ∧
      (fsGet st0.fs (get_daily_csv_path "root" tMorn) = none →
        fsGet (cycle names104 "root" tLate tMorn Fault.ok st0 "id: 104 !").1.fs
            (get_daily_csv_path "root" tMorn)
          = some [CsvLine.header, CsvLine.row (mkEvent tLate 104 "Jane" "Smith")]) ∧
      (∀ c, fsGet st0.fs (get_daily_csv_path "root" tMorn) = some c →
        fsGet (cycle names104 "root" tLate tMorn Fault.ok st0 "id: 104 !").1.fs
            (get_daily_csv_path "root" tMorn)
          = some (c ++ [CsvLine.row (mkEvent tLate 104 "Jane" "Smith")])) ∧
      (∀ q, q ≠ get_daily_csv_path "root" tMorn →
        fsGet (cycle names104 "root" tLate tMorn Fault.ok st0 "id: 104 !").1.fs q
          = fsGet st0.fs q) :=
  scan_single_capture_same_date names104 "root" tLate tMorn st0 "id: 104 !"
    104 "Jane" "Smith" (by decide) (by decide) (by decide)

/-! ### Daily CSV partitioning over a run of scans -/

/-- A run of successful scans as `append_daily_csv` sees it: each element is
the `datetime.now()` of the append together with the row appended. -/
def runAppends (fs : FS) (base : String) (l : List (Instant × Event)) : FS :=
  l.foldl (fun acc te => (append_daily_csv acc base te.1 te.2).1) fs

theorem runAppends_get : ∀ (l : List (Instant × Event)) (fs : FS)
    (base p : String),
    fsGet (runAppends fs base l) p =
      match fsGet fs p with
      | none =>
        if (l.filter (fun te => get_daily_csv_path base te.1 == p)).isEmpty
        then none
        else some (CsvLine.header ::
          (l.filter (fun te => get_daily_csv_path base te.1 == p)).map
            (fun te => CsvLine.row te.2))
      | some c =>
        some (c ++
          (l.filter (fun te => get_daily_csv_path base te.1 == p)).map
            (fun te => CsvLine.row te.2))
  | [], fs, base, p => by
    cases hg : fsGet fs p <;> simp [runAppends, hg]
  | te :: rest, fs, base, p => by
    have hstep : runAppends fs base (te :: rest)
        = runAppends (append_daily_csv fs base te.1 te.2).1 base rest := rfl
    rw [hstep]
    by_cases hpp : (get_daily_csv_path base te.1 == p) = true
    · have hpe : get_daily_csv_path base te.1 = p := by rwa [beq_iff_eq] at hpp
      cases hg : fsGet fs p with
      | none =>
        have hg0 : fsGet fs (get_daily_csv_path base te.1) = none := by
          rwa [hpe]
        have hfs' : fsGet (append_daily_csv fs base te.1 te.2).1 p
            = some [CsvLine.header, CsvLine.row te.2] := by
          simp only [append_daily_csv, hg0]
          rw [← hpe]
          exact fsGet_fsSet_self fs _ _
        rw [runAppends_get rest _ base p, hfs']
        simp [List.filter_cons, hpp, hg]
      | some c =>
        have hg0 : fsGet fs (get_daily_csv_path base te.1) = some c := by
          rwa [hpe]
        have hfs' : fsGet (append_daily_csv fs base te.1 te.2).1 p
            = some (c ++ [CsvLine.row te.2]) := by
          simp only [append_daily_csv, hg0]
          rw [← hpe]
          exact fsGet_fsSet_self fs _ _
        rw [runAppends_get rest _ base p, hfs']
        simp [List.filter_cons, hpp, hg]
    · have hpp' : (get_daily_csv_path base te.1 == p) = false := by
        simpa using hpp
      have hpe : p ≠ get_daily_csv_path base te.1 := by
        intro h
        apply hpp
        rw [h]
        simp
      have hfs' : fsGet (append_daily_csv fs base te.1 te.2).1 p = fsGet fs p := by
        cases hg0 : fsGet fs (get_daily_csv_path base te.1) with
        | none =>
          simp only [append_daily_csv, hg0]
          exact fsGet_fsSet_ne fs _ p _ hpe
        | some c =>
          simp only [append_daily_csv, hg0]
          exact fsGet_fsSet_ne fs _ p _ hpe
      have hfilter : List.filter (fun te => get_daily_csv_path base te.1 == p)
          (te :: rest)
          = List.filter (fun te => get_daily_csv_path base te.1 == p) rest := by
        rw [List.filter_cons]
        simp [hpp']
      rw [runAppends_get rest _ base p, hfs', hfilter]

/-- Claim C5: over any run of successful scans from an empty output tree,
the file at a path `p` exists iff some scan's append-time instant maps to
`p` under `<root>/<MM_YYYY>/<MM_DD_YYYY>.csv`, and then its content is the
header row exactly once, first, followed by that run's rows for `p` in
arrival order.  In particular two same-date scans share one file with a
single header, and a scan on the next date starts a new file with its own
header. -/
theorem daily_csv_partitioning (base : String) (l : List (Instant × Event))
    (p : String) :
    fsGet (runAppends [] base l) p =
      if (l.filter (fun te => get_daily_csv_path base te.1 == p)).isEmpty
      then none
      else some (CsvLine.header ::
        (l.filter (fun te => get_daily_csv_path base te.1 == p)).map
          (fun te => CsvLine.row te.2)) := by
  have h := runAppends_get l [] base p
  have hg : fsGet ([] : FS) p = none := rfl
  rw [hg] at h
  exact h

example :
    runAppends [] "root"
        [(tMorn, mkEvent tMorn 104 "Jane" "Smith"),
         (tLate, mkEvent tLate 104 "Jane" "Smith"),
         (tNext, mkEvent tNext 104 "Jane" "Smith")]
      = [("root/10_2026/10_11_2026.csv",
            [CsvLine.header,
             CsvLine.row (mkEvent tMorn 104 "Jane" "Smith"),
             CsvLine.row (mkEvent tLate 104 "Jane" "Smith")]),
         ("root/10_2026/10_12_2026.csv",
            [CsvLine.header,
             CsvLine.row (mkEvent tNext 104 "Jane" "Smith")])] := by decide

/-! ### Import menu (student_input.py `menu` / `main`) -/

/-- String-valued Python `str.strip()`. -/
def pyStrip (s : String) : String :=
  String.mk (stripCs s.toList)

/-- The two input formats described by the import flow. -/
inductive Mode where
  | combined
  | separate
deriving DecidableEq, Repr

/-- Embedding of `menu` (student_input.py:131-139): strip the typed choice;
any choice other than `"2"` prints an error and exits with code 1 (the
combined-format menu line is commented out and `"1"` is not in the accepted
set). -/
def menu (raw : String) : Except Nat String :=
  let choice := pyStrip raw
  if choice == "2" then Except.ok choice else Except.error 1

/-- The branch in `main` (student_input.py:146-149): choice `"1"` selects the
combined builder, anything else the separate builder. -/
def modeOfChoice (choice : String) : Mode :=
  if choice == "1" then Mode.combined else Mode.separate

/-- The input mode the import flow runs with, for a given menu entry. -/
def importMode (raw : String) : Except Nat Mode :=
  (menu raw).map modeOfChoice

/-- Embedding of `build_from_combined` (student_input.py:79-87): parse the
combined column through `parse_fullname`, then `finalize`. -/
def build_from_combined (rows : List String) : List (Nat × String × String) :=
  finalize (rows.map parse_fullname)

/-- Claim C9 (counterexample): the import flow does not let the caller select
combined mode.  Entering `"1"` exits with code 1, and no menu entry at all
reaches the combined builder, because `menu` only accepts `"2"` (the
combined option is commented out) and choice `"2"` maps to separate mode. -/
theorem combined_mode_unreachable :
    importMode "1" = Except.error 1 ∧
      ∀ raw, importMode raw ≠ Except.ok Mode.combined := by
  constructor
  · rfl
  · intro raw
    unfold importMode menu
    by_cases h : (pyStrip raw == "2") = true
    · have h2 : pyStrip raw = "2" := by rwa [beq_iff_eq] at h
      have h3 : (("2" : String) == "1") = false := by decide
      simp only [h2, h, if_true, Except.map, modeOfChoice, h3,
        Bool.false_eq_true, if_false]
      intro hc
      injection hc with hc2
      cases hc2
    · simp only [h, Bool.false_eq_true, if_false]
      intro hc
      cases hc

/-- Claim C9 (amended): the import flow only accepts the separate-columns
mode: entering `"2"` selects separate mode and every other entry exits with
code 1, so combined mode (whose parser `parse_fullname` does map
`"Smith, Jane A."` to `(first_name = "Jane", last_name = "Smith")`, as the
unreachable combined builder shows) cannot be selected from the menu. -/
theorem menu_separate_only :
    importMode "2" = Except.ok Mode.separate ∧
      (∀ raw, pyStrip raw ≠ "2" → importMode raw = Except.error 1) ∧
      parse_fullname "Smith, Jane A." = ("Jane", "Smith") ∧
      build_from_combined ["Smith, Jane A."] = [(100, ("Jane", "Smith"))] := by
  refine ⟨by rfl, ?_, by decide, ?_⟩
  · intro raw h
    have hb : (pyStrip raw == "2") = false := by
      rw [beq_eq_false_iff_ne]
      exact h
    simp [importMode, menu, hb, Except.map]
  · rw [build_from_combined, finalize_eq_finalizeEval]
    decide

/-- Witness for the amended C9: the combined-format entry `"1"` exits with
code 1. -/
theorem menu_separate_only_witness : importMode "1" = Except.error 1 :=
  menu_separate_only.2.1 "1" (by decide)

end StudentTracking
